import Mathlib

/-!
Verification development for `poll.py` of the `ping_tracker` repository.

The file shallowly embeds the host-check pipeline of `poll.py`:
the post-subprocess part of `check_hosts` (exit-status handling, parsing of
`fping`'s stdout with `re.findall`, timestamping, reconciliation against the
requested host list), the SQLite writer of the `__main__` block, and the way
`__main__` passes `include_failed_dns` to `check_hosts`.

Modelling conventions:
- Side effects are made explicit: the `fping` exit status and decoded stdout
  are inputs; the batch timestamp (`int(pd.Timestamp.now(tz='UTC').value/1e9)`,
  computed exactly once, after parsing) is an input `now : Int`; warnings
  emitted by `warnings.warn` are collected in the returned `CheckResult`.
- `timeout_ms` and `ipv4_only` only alter the `fping` command line, never the
  treatment of its output, so they are omitted from the embedding; likewise
  the `FPingNotFound` check (`which fping`), which precedes the probe run.
- Python's `re.findall` on the pattern `(.*?) is ([a-z]+)` (plus, when
  `add_elapsed` is set, the optional group `(?: \((\d+.\d+) ms\))?`) is
  embedded directly: a lazy dot-star (any character except a newline),
  literal ` is `, a greedy maximal run of ASCII lowercase letters, and a
  greedy-optional latency group whose middle `.` (unescaped in the source!)
  is any non-newline character, with the backtracking the Python engine
  performs over the first `\d+`.  Python's `\d` is Unicode-aware; `fping`
  output is ASCII, so ASCII digits are used here.
- Latency strings are converted by pandas `astype('float')`; this is embedded
  as an exact-decimal `Option ℚ` parser (`pyFloat`).  The only latency values
  any claim evaluates are well-formed decimals such as `12.3`, which Python's
  binary floats and `ℚ` agree on as parsed tokens; an unparseable capture
  (which would make `astype` raise) is modelled as `none`.
-/

/-- ASCII lowercase letter, the character class `[a-z]` of the pattern. -/
def isLowerAZ (c : Char) : Bool := 'a' ≤ c && c ≤ 'z'

/-- ASCII digit, the character class `\d` of the pattern on fping output. -/
def isDigitC (c : Char) : Bool := '0' ≤ c && c ≤ '9'

/-- Python's `.` without `re.DOTALL`: any character except a newline. -/
def notNL (c : Char) : Bool := c ≠ '\n'

/-- Literal ` is ` of the pattern `(.*?) is ([a-z]+)`. -/
def litIs : List Char := [' ', 'i', 's', ' ']

/-- Literal ` (` opening the optional latency group ` \((\d+.\d+) ms\)`. -/
def litParen : List Char := [' ', '(']

/-- Literal ` ms)` closing the optional latency group. -/
def litMs : List Char := [' ', 'm', 's', ')']

/-- Match a literal character sequence at the head of the input and return
the remainder, or `none` on a mismatch or when the input is too short. -/
def dropLit : List Char → List Char → Option (List Char)
  | [], cs => some cs
  | _ :: _, [] => none
  | l :: ls, c :: cs => if c = l then dropLit ls cs else none

/-- Greedy maximal run of characters satisfying `p` (the `+`/`*` repetition
of a character class), returned together with the rest of the input. -/
def takeRun (p : Char → Bool) : List Char → List Char × List Char
  | [] => ([], [])
  | c :: cs =>
    if p c then ((c :: (takeRun p cs).1, (takeRun p cs).2) : List Char × List Char)
    else ([], c :: cs)

/-- Match `.\d+ ms)` — the tail of the latency group after a chosen split of
the leading digit run: one arbitrary non-newline character (the unescaped `.`
of `\d+.\d+` in the source), a nonempty digit run, then the literal ` ms)`.
Returns the consumed middle character, the digit run and the rest. -/
def matTail : List Char → Option (Char × List Char × List Char)
  | [] => none
  | c :: cs =>
    if notNL c then
      match takeRun isDigitC cs with
      | ([], _) => none
      | (d :: ds, rest) =>
        match dropLit litMs rest with
        | some rest2 => some (c, d :: ds, rest2)
        | none => none
    else none

/-- Backtracking over the first `\d+` of `\((\d+.\d+) ms\)`: `rr` is the
currently chosen first digit run in reverse; on failure of the tail the last
digit is given back to the input, exactly as the Python engine shrinks a
greedy `\d+`.  Returns the full captured group `\d+.\d+` and the rest. -/
def d1Bt : List Char → List Char → Option (List Char × List Char)
  | [], _ => none
  | d :: rr, cs =>
    match matTail cs with
    | some (c, d2, rest) => some ((d :: rr).reverse ++ c :: d2, rest)
    | none => d1Bt rr (d :: cs)

/-- Match the optional latency group ` \((\d+.\d+) ms\)` at the head of the
input, returning the captured `\d+.\d+` text and the rest on success. -/
def matchLat (cs : List Char) : Option (String × List Char) :=
  match dropLit litParen cs with
  | none => none
  | some cs1 =>
    match d1Bt (takeRun isDigitC cs1).1.reverse (takeRun isDigitC cs1).2 with
    | some (cap, rest) => some (String.mk cap, rest)
    | none => none

/-- Match ` is ([a-z]+)` and, when `el` (the `add_elapsed` flag) is set, the
greedy-optional latency group, at the head of the input.  Returns the token,
the optional latency capture (Python's `''` for an unmatched group is
modelled as `none`) and the rest. -/
def matchAfterHost (el : Bool) (cs : List Char) : Option (String × Option String × List Char) :=
  match dropLit litIs cs with
  | none => none
  | some cs1 =>
    match takeRun isLowerAZ cs1 with
    | ([], _) => none
    | (t :: ts, rest) =>
      if el then
        match matchLat rest with
        | some (cap, rest2) => some (String.mk (t :: ts), some cap, rest2)
        | none => some (String.mk (t :: ts), none, rest)
      else some (String.mk (t :: ts), none, rest)

/-- The lazy `(.*?)` scan: try to complete the pattern immediately (shortest
host first); on failure extend the host by one non-newline character.  `acc`
holds the host read so far, in reverse. -/
def tryHost (el : Bool) : List Char → List Char → Option (String × String × Option String × List Char)
  | acc, [] =>
    match matchAfterHost el [] with
    | some (tok, lat, rest) => some (String.mk acc.reverse, tok, lat, rest)
    | none => none
  | acc, c :: cs' =>
    match matchAfterHost el (c :: cs') with
    | some (tok, lat, rest) => some (String.mk acc.reverse, tok, lat, rest)
    | none => if notNL c then tryHost el (c :: acc) cs' else none

/-- Attempt a match of the whole pattern anchored at the current position. -/
def matchFrom (el : Bool) (cs : List Char) : Option (String × String × Option String × List Char) :=
  tryHost el [] cs

/-- Fuel-driven scan of `re.findall`: at each position try a match; on
success continue after it, otherwise advance one character.  Every step
consumes at least one character, so fuel equal to the input length is exact. -/
def findallAux (el : Bool) : Nat → List Char → List (String × String × Option String)
  | 0, _ => []
  | fuel + 1, cs =>
    match matchFrom el cs with
    | some (h, t, l, rest) => (h, t, l) :: findallAux el fuel rest
    | none =>
      match cs with
      | [] => []
      | _ :: cs' => findallAux el fuel cs'

/-- `re.findall(pattern, stdout)` of `check_hosts`: all leftmost
non-overlapping matches, each as `(host, token, optional latency capture)`. -/
def findall (el : Bool) (cs : List Char) : List (String × String × Option String) :=
  findallAux el cs.length cs

/-- Value of a nonempty ASCII digit run. -/
def digitsVal (ds : List Char) : Nat :=
  ds.foldl (fun a c => a * 10 + (c.toNat - 48)) 0

/-- Conversion performed by `astype('float')` on a captured latency string,
as an exact decimal rational: `"12"` parses to `12`, `"12.3"` to `123/10`.
A capture that is not a plain decimal (possible because the `.` of
`\d+.\d+` is unescaped) would make Python raise; it is modelled as `none`. -/
def pyFloat (s : String) : Option ℚ :=
  match s.toList.splitOn '.' with
  | [ds] => if !ds.isEmpty && ds.all isDigitC then some (digitsVal ds) else none
  | [d1, d2] =>
    if !d1.isEmpty && !d2.isEmpty && d1.all isDigitC && d2.all isDigitC then
      some ((digitsVal d1 : ℚ) + (digitsVal d2 : ℚ) / (10 : ℚ) ^ d2.length)
    else none
  | _ => none

/-- The `ping` column value of a parsed row: `df['ping'].replace('', np.nan)
.astype('float')` — an unmatched latency group is `NaN` (`none`), a captured
one is converted to a float. -/
def latVal : Option String → Option ℚ
  | none => none
  | some s => pyFloat s

/-- Tri-state-plus value of the `reachable` column.  `replace({'alive': True,
'unreachable': False})` maps exactly those two tokens; any other captured
token stays in the column as the raw string (`tok`); `pd.NA` placeholder
rows are `na`. -/
inductive RVal
  | tru
  | fls
  | tok (s : String)
  | na
deriving DecidableEq, Repr

/-- The `reachable` value produced from a captured token. -/
def reachableOfTok (t : String) : RVal :=
  if t = "alive" then RVal.tru
  else if t = "unreachable" then RVal.fls
  else RVal.tok t

/-- One row of the DataFrame returned by `check_hosts`: index `machine`,
columns `reachable`, `ping` (always `none` when `add_elapsed` is off, since
the pattern then has no latency group) and `ts`. -/
structure Row where
  machine : String
  reachable : RVal
  ping : Option ℚ
  ts : Int
deriving DecidableEq, Repr

/-- Build a parsed row from one `re.findall` tuple and the batch timestamp. -/
def mkRow (now : Int) : String × String × Option String → Row
  | (h, t, l) => ⟨h, reachableOfTok t, latVal l, now⟩

/-- Warnings emitted via `warnings.warn` in `check_hosts`, in order. -/
inductive Warning
  | duplicates (n : Nat)
  | conflict
  | noResult (n : Int)
deriving DecidableEq, Repr

/-- Errors raised by `check_hosts`.  `fpingError` is `FPingException`,
carrying the exit code and the cause message looked up in
`FPingException.ret_codes`; `keyError` models the `KeyError` Python raises
while constructing `FPingException` for an exit code absent from that dict. -/
inductive PollError
  | fpingError (exit_code : Int) (message : String)
  | keyError (exit_code : Int)
deriving DecidableEq, Repr

/-- The `FPingException.ret_codes` dictionary. -/
def ret_codes (n : Int) : Option String :=
  if n = 0 then some "all hosts are reachable"
  else if n = 1 then some "some hosts are unreachable"
  else if n = 2 then some "some IP addresses or hostnames were not found"
  else if n = 3 then some "invalid command line arguments"
  else if n = 4 then some "system call failure"
  else none

/-- Result of a successful `check_hosts` run: the returned DataFrame rows in
order, and the warnings emitted during the run, in order. -/
structure CheckResult where
  df : List Row
  warnings : List Warning
deriving DecidableEq, Repr

/-- The duplicate-host warning (poll.py, lines 76-77): emitted when
`len(hosts) - len(set(hosts)) > 0`, carrying that count. -/
def dupWarnings (hosts : List String) : List Warning :=
  if 0 < hosts.length - hosts.dedup.length then
    [Warning.duplicates (hosts.length - hosts.dedup.length)]
  else []

/-- The parsed DataFrame rows (poll.py, lines 91-104): one row per
`re.findall` tuple, with `reachable` replaced, the batch timestamp column
and the converted `ping` column. -/
def parsedRows (el : Bool) (stdout : String) (now : Int) : List Row :=
  (findall el stdout.toList).map (mkRow now)

/-- `n_err = len(hosts) - len(df)` (poll.py, line 105), a Python int. -/
def nErr (hosts : List String) (el : Bool) (stdout : String) : Int :=
  (hosts.length : Int) - ((findall el stdout.toList).length : Int)

/-- `missing_hosts = [x for x in hosts if x not in df.index]` (poll.py,
line 110) — multiplicity-preserving, membership-tested. -/
def missingHosts (hosts : List String) (rows : List Row) : List String :=
  hosts.filter (fun x => !((rows.map Row.machine).contains x))

/-- Success path of `check_hosts` (poll.py, lines 75-117), entered once the
probe's exit status is below 3: duplicate-host warning, `re.findall` over the
decoded stdout, `reachable` replacement, batch-timestamp column, and, when
`len(hosts) - len(df) != 0`, the reverse-lookup conflict demotion followed by
either the multiplicity-preserving append of missing hosts or the
missing-result warning. -/
def check_hosts_ok (hosts : List String) (reverse_lookup : Bool) (add_elapsed : Bool)
    (include_failed_dns : Bool) (stdout : String) (now : Int) : CheckResult :=
  if nErr hosts add_elapsed stdout ≠ 0 then
    if reverse_lookup && include_failed_dns then
      ⟨parsedRows add_elapsed stdout now,
       dupWarnings hosts ++ [Warning.conflict, Warning.noResult (nErr hosts add_elapsed stdout)]⟩
    else if include_failed_dns then
      ⟨parsedRows add_elapsed stdout now
         ++ (missingHosts hosts (parsedRows add_elapsed stdout now)).map
              (fun x => ⟨x, RVal.na, none, now⟩),
       dupWarnings hosts⟩
    else
      ⟨parsedRows add_elapsed stdout now,
       dupWarnings hosts ++ [Warning.noResult (nErr hosts add_elapsed stdout)]⟩
  else
    ⟨parsedRows add_elapsed stdout now, dupWarnings hosts⟩

/-- Shallow embedding of `check_hosts` (poll.py, lines 53-117), with the
probe exit status and decoded stdout as explicit inputs and the batch
timestamp `now` as an explicit input.  `if call.returncode >= 3: raise
FPingException(call.returncode)` — where constructing the exception looks the
code up in `ret_codes` — otherwise the success path `check_hosts_ok`. -/
def check_hosts (hosts : List String) (reverse_lookup : Bool) (add_elapsed : Bool)
    (include_failed_dns : Bool) (returncode : Int) (stdout : String) (now : Int) :
    Except PollError CheckResult :=
  if 3 ≤ returncode then
    match ret_codes returncode with
    | some m => Except.error (PollError.fpingError returncode m)
    | none => Except.error (PollError.keyError returncode)
  else
    Except.ok (check_hosts_ok hosts reverse_lookup add_elapsed include_failed_dns stdout now)

/-- SQLite storage value. -/
inductive SqlVal
  | int (n : Int)
  | real (q : ℚ)
  | text (s : String)
  | null
deriving DecidableEq, Repr

/-- The DDL of the destination table (`ts_schema` of poll.py), including the
`CHECK (online IN (0, 1))` domain constraint and the foreign key on
`host_id`. -/
def ts_schema : String :=
  "CREATE TABLE IF NOT EXISTS ts (timestamp INTEGER NOT NULL, host_id INTEGER NOT NULL, online INTEGER CHECK (online IN (0, 1)), latency_ms REAL, FOREIGN KEY(host_id) REFERENCES hosts(id) ON DELETE SET NULL ON UPDATE CASCADE)"

/-- One row bound for the `ts` table. -/
structure TsEntry where
  timestamp : Int
  host_id : Int
  online : SqlVal
  latency_ms : SqlVal
deriving DecidableEq, Repr

/-- Storage encoding of the `reachable` column under `to_sql`: Python `True`
is stored as integer 1, `False` as 0, `pd.NA` as NULL, and a raw leftover
token string would be bound as TEXT. -/
def encodeReachable : RVal → SqlVal
  | RVal.tru => SqlVal.int 1
  | RVal.fls => SqlVal.int 0
  | RVal.tok s => SqlVal.text s
  | RVal.na => SqlVal.null

/-- Storage encoding of the `ping` column: `NaN` (absent) becomes NULL. -/
def encodeLatency : Option ℚ → SqlVal
  | some q => SqlVal.real q
  | none => SqlVal.null

/-- Shallow embedding of the writer's row construction (poll.py, lines
175-178): `df.join(hosts_db.reset_index().set_index('hostname'),
on='machine').dropna(subset='id')` followed by the column renames.  `db` is
the `hosts` table as `(id, hostname)` pairs; a left join against a
non-unique index keeps left order and replicates right matches in order,
and `dropna` removes exactly the rows with no match. -/
def df_sqlite (db : List (Int × String)) (rows : List Row) : List TsEntry :=
  rows.flatMap (fun r =>
    (db.filter (fun p => p.2 == r.machine)).map (fun p =>
      ⟨r.ts, p.1, encodeReachable r.reachable, encodeLatency r.ping⟩))

/-- Does a stored `online` value satisfy `CHECK (online IN (0, 1))` under
SQL three-valued logic?  NULL makes the check non-false, so it passes. -/
def onlineCheckOK : SqlVal → Bool
  | SqlVal.int n => n == 0 || n == 1
  | SqlVal.null => true
  | _ => false

/-- Shallow embedding of the transactional append (poll.py, lines 179-189):
`PRAGMA foreign_keys=1`, `PRAGMA ignore_check_constraints=0`, then
`to_sql('ts', ..., if_exists='append')` into the table created by
`ts_schema`.  The append succeeds, atomically, only if every row satisfies
the `online` domain check and references an existing host id. -/
def insertTs (hostIds : List Int) (entries : List TsEntry) : Except String (List TsEntry) :=
  if entries.all (fun e => onlineCheckOK e.online && hostIds.contains e.host_id) then
    Except.ok entries
  else
    Except.error "IntegrityError"

/-- Default of the `include_failed_dns` parameter in the signature of
`check_hosts` (poll.py, line 54). -/
def include_failed_dns_default : Bool := false

/-- How `__main__` (poll.py, lines 157-158) invokes `check_hosts`: the flag
`--exclude_failed` (an `argparse` `store_true`, so `false` when absent) is
negated into `include_failed_dns=not args.exclude_failed`. -/
def main_check_hosts (hosts : List String) (reverse : Bool) (elapsed : Bool)
    (exclude_failed : Bool) (returncode : Int) (stdout : String) (now : Int) :
    Except PollError CheckResult :=
  check_hosts hosts reverse elapsed (!exclude_failed) returncode stdout now

/-! ## Supporting lemmas -/

/-- A parsed row carries the batch timestamp. -/
theorem mkRow_ts (now : Int) (s : String × String × Option String) : (mkRow now s).ts = now := by
  rcases s with ⟨h, t, l⟩
  rfl

/-- A parsed row's machine is the host capture of its tuple. -/
theorem mkRow_machine (now : Int) (s : String × String × Option String) :
    (mkRow now s).machine = s.1 := by
  rcases s with ⟨h, t, l⟩
  rfl

/-- Did the probe call surface as an `FPingException` carrying status `s`? -/
def raisesFPingCarrying (r : Except PollError CheckResult) (s : Int) : Bool :=
  match r with
  | Except.error (PollError.fpingError c _) => c == s
  | _ => false

deriving instance DecidableEq for Except

/-- A successful `check_hosts` run returns exactly the success path's
result. -/
theorem check_hosts_ok_inv (hosts : List String) (rev el inc : Bool) (rc : Int)
    (out : String) (now : Int) (res : CheckResult)
    (h : check_hosts hosts rev el inc rc out now = Except.ok res) :
    res = check_hosts_ok hosts rev el inc out now := by
  unfold check_hosts at h
  split at h
  · split at h <;> cases h
  · cases h
    rfl

/-! ## C1 — exit-status handling -/

/-- C1 (amended): exit statuses below 3 (in particular 0, 1 and 2) are
success — `check_hosts` does not raise for them; for exit statuses 3 and 4
an `FPingException` is raised carrying that status and a nonempty
human-readable cause from `ret_codes`; for any status of 5 or more,
constructing `FPingException` fails with a `KeyError` because the status is
absent from `ret_codes`, so no `FPingException` carrying the status is
raised. -/
theorem check_hosts_exit_status_amended :
    ∀ (hosts : List String) (rev el inc : Bool) (rc : Int) (out : String) (now : Int),
    (rc < 3 → ∃ res, check_hosts hosts rev el inc rc out now = Except.ok res) ∧
    ((rc = 3 ∨ rc = 4) → ∃ m, ret_codes rc = some m ∧ m ≠ "" ∧
        check_hosts hosts rev el inc rc out now = Except.error (PollError.fpingError rc m)) ∧
    (5 ≤ rc → check_hosts hosts rev el inc rc out now = Except.error (PollError.keyError rc)) := by
  intro hosts rev el inc rc out now
  refine ⟨fun hlt => ?_, fun h34 => ?_, fun h5 => ?_⟩
  · unfold check_hosts
    rw [if_neg (by omega)]
    exact ⟨_, rfl⟩
  · rcases h34 with rfl | rfl
    · refine ⟨"invalid command line arguments", rfl, by decide, ?_⟩
      unfold check_hosts
      rw [if_pos (by omega)]
      rfl
    · refine ⟨"system call failure", rfl, by decide, ?_⟩
      unfold check_hosts
      rw [if_pos (by omega)]
      rfl
  · have hnone : ret_codes rc = none := by
      unfold ret_codes
      rw [if_neg (by omega), if_neg (by omega), if_neg (by omega), if_neg (by omega),
        if_neg (by omega)]
    unfold check_hosts
    rw [if_pos (by omega), hnone]

/-- C1 witness: at status 0 the run succeeds, and at status 3 the error is
an `FPingException` carrying 3 and its nonempty cause. -/
theorem check_hosts_exit_status_witness :
    (∃ res, check_hosts ["a"] false false false 0 "" 0 = Except.ok res) ∧
    (∃ m, ret_codes 3 = some m ∧ m ≠ "" ∧
        check_hosts ["a"] false false false 3 "" 0 = Except.error (PollError.fpingError 3 m)) :=
  ⟨(check_hosts_exit_status_amended ["a"] false false false 0 "" 0).1 (by decide),
   (check_hosts_exit_status_amended ["a"] false false false 3 "" 0).2.1 (Or.inl rfl)⟩

/-- C1 counterexample: at exit status 5 (which is `>= 3`) the raised error is
a `KeyError`, not an `FPingException` carrying status 5 and a cause — the
claim's "for every exit status >= 3" fails at 5. -/
theorem check_hosts_exit_status_counterexample :
    raisesFPingCarrying (check_hosts ["a"] false false false 5 "" 0) 5 = false ∧
    check_hosts ["a"] false false false 5 "" 0 = Except.error (PollError.keyError 5) := by
  exact ⟨by decide, by decide⟩

/-! ## C5 — conflict demotion -/

/-- C5: with `reverse_lookup = true`, calling `check_hosts` with
`include_failed_dns = true` returns the same result DataFrame as calling it
with `include_failed_dns = false`: the conflicting keep-unresolved option is
demoted (with a warning) instead of failing the run. -/
theorem check_hosts_conflict_demotion :
    ∀ (hosts : List String) (el : Bool) (rc : Int) (out : String) (now : Int),
    (check_hosts hosts true el true rc out now).map CheckResult.df
      = (check_hosts hosts true el false rc out now).map CheckResult.df := by
  intro hosts el rc out now
  unfold check_hosts
  split
  · split <;> rfl
  · have hdf : (check_hosts_ok hosts true el true out now).df
        = (check_hosts_ok hosts true el false out now).df := by
      unfold check_hosts_ok
      split
      · rfl
      · rfl
    exact congrArg Except.ok hdf

/-! ## C7 — single batch timestamp -/

/-- C7: every record returned by one invocation of `check_hosts` — parsed
records and unresolved-host placeholders alike — carries the single batch
timestamp `now` (the integer seconds-since-epoch value the source computes
once, right after parsing). -/
theorem check_hosts_batch_timestamp :
    ∀ (hosts : List String) (rev el inc : Bool) (rc : Int) (out : String) (now : Int)
      (res : CheckResult),
    check_hosts hosts rev el inc rc out now = Except.ok res →
    ∀ r ∈ res.df, r.ts = now := by
  intro hosts rev el inc rc out now res h r hr
  rw [check_hosts_ok_inv hosts rev el inc rc out now res h] at hr
  have hparsed : ∀ x ∈ parsedRows el out now, x.ts = now := by
    intro x hx
    simp only [parsedRows, List.mem_map] at hx
    obtain ⟨s, _, rfl⟩ := hx
    exact mkRow_ts now s
  unfold check_hosts_ok at hr
  split at hr
  · split at hr
    · exact hparsed r hr
    · split at hr
      · simp only [List.mem_append, List.mem_map] at hr
        rcases hr with hr | ⟨x, _, rfl⟩
        · exact hparsed r (by simpa [parsedRows] using hr)
        · rfl
      · exact hparsed r hr
  · exact hparsed r hr

/-- C7 witness: in a concrete run both the parsed record and the placeholder
record carry the batch timestamp 42. -/
theorem check_hosts_batch_timestamp_witness :
    (⟨"a", RVal.tru, none, 42⟩ : Row).ts = 42 ∧ (⟨"c", RVal.na, none, 42⟩ : Row).ts = 42 :=
  ⟨check_hosts_batch_timestamp ["a", "c"] false false true 0 "a is alive" 42
      ⟨[⟨"a", RVal.tru, none, 42⟩, ⟨"c", RVal.na, none, 42⟩], []⟩ (by decide)
      ⟨"a", RVal.tru, none, 42⟩ (by simp),
   check_hosts_batch_timestamp ["a", "c"] false false true 0 "a is alive" 42
      ⟨[⟨"a", RVal.tru, none, 42⟩, ⟨"c", RVal.na, none, 42⟩], []⟩ (by decide)
      ⟨"c", RVal.na, none, 42⟩ (by simp)⟩

/-! ## C9 — latency capture -/

/-- C9: with latency capture enabled, a line reporting a host alive with a
`(12.3 ms)` suffix yields `ping = 12.3`, and a line reporting a host alive
with no latency suffix yields an absent (`none`) latency value, which is
distinct from zero. -/
theorem check_hosts_latency_capture :
    check_hosts ["hosta", "hostb"] false true false 0
        "hosta is alive (12.3 ms)\nhostb is alive" 9
      = Except.ok ⟨[⟨"hosta", RVal.tru, latVal (some "12.3"), 9⟩,
                    ⟨"hostb", RVal.tru, none, 9⟩], []⟩ ∧
    latVal (some "12.3") = some ((123 : ℚ) / 10) ∧
    (⟨"hostb", RVal.tru, none, 9⟩ : Row).ping = none ∧
    (none : Option ℚ) ≠ some 0 := by
  refine ⟨rfl, ?_, rfl, by decide⟩
  have h1 : latVal (some "12.3")
      = some ((((12 : ℕ) : ℚ)) + (((3 : ℕ) : ℚ)) / (10 : ℚ) ^ (1 : ℕ)) := rfl
  rw [h1]
  norm_num

/-! ## C10 — CLI default for unresolved hosts -/

/-- C10: invoked from the command line without `--exclude_failed`,
`check_hosts` is called with `include_failed_dns = true` (the negation of the
flag), which is the opposite of the function's own default
`include_failed_dns = false`; so by default the CLI keeps unresolved hosts as
unknown-placeholder records while a default call of the function drops
them. -/
theorem cli_include_failed_dns_default :
    (∀ (hosts : List String) (rev el : Bool) (rc : Int) (out : String) (now : Int),
        main_check_hosts hosts rev el false rc out now
          = check_hosts hosts rev el true rc out now) ∧
    include_failed_dns_default = false ∧
    (!false) ≠ include_failed_dns_default ∧
    main_check_hosts ["c"] false false false 0 "" 7
      = Except.ok ⟨[⟨"c", RVal.na, none, 7⟩], []⟩ ∧
    check_hosts ["c"] false false include_failed_dns_default 0 "" 7
      = Except.ok ⟨[], [Warning.noResult 1]⟩ :=
  ⟨fun _ _ _ _ _ _ => rfl, rfl, by decide, by decide, by decide⟩

/-! ## C6 — store writer lookup and mapping -/

/-- `df_sqlite` unfolded one row at a time. -/
theorem df_sqlite_cons (db : List (Int × String)) (r : Row) (rs : List Row) :
    df_sqlite db (r :: rs)
      = ((db.filter (fun p => p.2 == r.machine)).map
          (fun p => ⟨r.ts, p.1, encodeReachable r.reachable, encodeLatency r.ping⟩))
        ++ df_sqlite db rs := by
  unfold df_sqlite
  rw [List.flatMap_cons]

/-- C6: the store writer produces a `ts` row only for results whose host is
found in the hostname-to-id lookup — every produced entry comes from a result
row and a lookup pair with matching hostname, carrying the mapped values —
results with no matching id are dropped silently (filtering them away first
changes nothing, and the writer is a total function: no error, no warning),
and the value mapping is `tru → 1`, `fls → 0`, `na → NULL`, absent latency
`→ NULL`. -/
theorem df_sqlite_lookup_mapping :
    ∀ (db : List (Int × String)) (rows : List Row),
    (∀ e ∈ df_sqlite db rows, ∃ r ∈ rows, ∃ p ∈ db, p.2 = r.machine ∧
        e = ⟨r.ts, p.1, encodeReachable r.reachable, encodeLatency r.ping⟩) ∧
    df_sqlite db rows
      = df_sqlite db (rows.filter (fun r => db.any (fun p => p.2 == r.machine))) ∧
    encodeReachable RVal.tru = SqlVal.int 1 ∧
    encodeReachable RVal.fls = SqlVal.int 0 ∧
    encodeReachable RVal.na = SqlVal.null ∧
    encodeLatency none = SqlVal.null := by
  intro db rows
  refine ⟨?_, ?_, rfl, rfl, rfl, rfl⟩
  · intro e he
    unfold df_sqlite at he
    simp only [List.mem_flatMap, List.mem_map, List.mem_filter, beq_iff_eq] at he
    obtain ⟨r, hr, p, ⟨hp, hpm⟩, rfl⟩ := he
    exact ⟨r, hr, p, hp, hpm, rfl⟩
  · induction rows with
    | nil => rfl
    | cons r rs ih =>
      rw [df_sqlite_cons, List.filter_cons]
      by_cases hd : db.any (fun p => p.2 == r.machine)
      · rw [if_pos hd, df_sqlite_cons, ih]
      · have hnil : db.filter (fun p => p.2 == r.machine) = [] := by
          rw [List.filter_eq_nil_iff]
          intro a ha hpa
          exact hd (List.any_eq_true.mpr ⟨a, ha, hpa⟩)
        rw [if_neg hd, hnil]
        simpa using ih

/-- C6 witness: a concrete produced entry comes from the matching result row
and lookup pair, with the mapped values. -/
theorem df_sqlite_lookup_mapping_witness :
    ∃ r ∈ [(⟨"a", RVal.tru, none, 3⟩ : Row)], ∃ p ∈ [((7 : Int), "a")], p.2 = r.machine ∧
      (⟨3, 7, SqlVal.int 1, SqlVal.null⟩ : TsEntry)
        = ⟨r.ts, p.1, encodeReachable r.reachable, encodeLatency r.ping⟩ :=
  (df_sqlite_lookup_mapping [((7 : Int), "a")] [⟨"a", RVal.tru, none, 3⟩]).1
    ⟨3, 7, SqlVal.int 1, SqlVal.null⟩ (by decide)

/-! ## C8 — online domain at rest -/

/-- C8: every `online` value stored at rest by a successful transactional
append of writer-produced rows is 0, 1 or NULL — for every reachability
input, including unknown and even leftover raw tokens, because the
storage-layer `CHECK (online IN (0, 1))` constraint is active during the
append and rejects anything else. -/
theorem insertTs_online_domain :
    ∀ (hostIds : List Int) (db : List (Int × String)) (rows : List Row)
      (stored : List TsEntry),
    insertTs hostIds (df_sqlite db rows) = Except.ok stored →
    ∀ e ∈ stored,
      e.online = SqlVal.int 0 ∨ e.online = SqlVal.int 1 ∨ e.online = SqlVal.null := by
  intro hostIds db rows stored h e he
  unfold insertTs at h
  split at h
  case isTrue hall =>
    cases h
    have h1 := List.all_eq_true.mp hall e he
    have h2 := ((Bool.and_eq_true _ _).mp h1).1
    rcases heq : e.online with n | q | s | _
    · rw [heq] at h2
      simp only [onlineCheckOK, Bool.or_eq_true, beq_iff_eq] at h2
      rcases h2 with rfl | rfl
      · exact Or.inl rfl
      · exact Or.inr (Or.inl rfl)
    · rw [heq] at h2
      simp [onlineCheckOK] at h2
    · rw [heq] at h2
      simp [onlineCheckOK] at h2
    · exact Or.inr (Or.inr rfl)
  case isFalse => cases h

/-- C8 witness: a concrete stored entry's `online` value is in the domain. -/
theorem insertTs_online_domain_witness :
    (⟨3, 7, SqlVal.int 1, SqlVal.null⟩ : TsEntry).online = SqlVal.int 0 ∨
    (⟨3, 7, SqlVal.int 1, SqlVal.null⟩ : TsEntry).online = SqlVal.int 1 ∨
    (⟨3, 7, SqlVal.int 1, SqlVal.null⟩ : TsEntry).online = SqlVal.null :=
  insertTs_online_domain [7] [((7 : Int), "a")] [⟨"a", RVal.tru, none, 3⟩]
    [⟨3, 7, SqlVal.int 1, SqlVal.null⟩] (by decide)
    ⟨3, 7, SqlVal.int 1, SqlVal.null⟩ (by decide)

/-! ## C2 — reconciled result count -/

/-- C2 (amended): the number of reconciled entries equals the number of
parsed probe-output records (one per regex match, duplicates counted), plus —
when keep-unresolved is requested, not demoted by `reverse_lookup`, and the
parsed-record count differs from the requested-host count — the number of
requested host occurrences (with multiplicity) whose hostname is absent from
the parsed records; it can therefore exceed the number of distinct requested
hosts. -/
theorem check_hosts_result_count_amended :
    ∀ (hosts : List String) (rev el inc : Bool) (rc : Int) (out : String) (now : Int)
      (res : CheckResult),
    check_hosts hosts rev el inc rc out now = Except.ok res →
    res.df.length = (findall el out.toList).length +
      (if inc = true ∧ rev = false ∧ hosts.length ≠ (findall el out.toList).length then
        (missingHosts hosts (parsedRows el out now)).length
      else 0) := by
  intro hosts rev el inc rc out now res h
  rw [check_hosts_ok_inv hosts rev el inc rc out now res h]
  unfold check_hosts_ok
  by_cases hn : nErr hosts el out ≠ 0
  · have hneq : hosts.length ≠ (findall el out.toList).length := by
      unfold nErr at hn
      omega
    rw [if_pos hn]
    have hneq' : hosts.length ≠ (findall el out.data).length := hneq
    cases rev <;> cases inc <;>
      simp [parsedRows, hneq, List.length_map, List.length_append, if_neg hneq']
  · have heq : hosts.length = (findall el out.toList).length := by
      unfold nErr at hn
      omega
    rw [if_neg hn]
    simp [parsedRows, heq, List.length_map]

/-- C2 witness: with requested hosts `["a","a"]` and empty probe output,
keep-unresolved on, the count formula gives 0 parsed + 2 missing
occurrences. -/
theorem check_hosts_result_count_witness :
    (⟨[⟨"a", RVal.na, none, 5⟩, ⟨"a", RVal.na, none, 5⟩],
        [Warning.duplicates 1]⟩ : CheckResult).df.length
      = (findall false "".toList).length +
        (if true = true ∧ false = false ∧
            (["a", "a"] : List String).length ≠ (findall false "".toList).length then
          (missingHosts ["a", "a"] (parsedRows false "" 5)).length
        else 0) :=
  check_hosts_result_count_amended ["a", "a"] false false true 0 "" 5
    ⟨[⟨"a", RVal.na, none, 5⟩, ⟨"a", RVal.na, none, 5⟩], [Warning.duplicates 1]⟩ (by decide)

/-- C2 counterexample: with requested hosts `["a","a"]` (one distinct host)
and empty probe output, keep-unresolved on, the run returns 2 entries; the
probe output contains 0 distinct hosts and 1 distinct requested host is
absent from it, so the claim predicts 0 + 1 = 1 entry, and 2 also exceeds
the 1 distinct requested host. -/
theorem check_hosts_result_count_counterexample :
    (check_hosts ["a", "a"] false false true 0 "" 5).map (fun r => r.df.length)
      = Except.ok 2 ∧
    ((findall false "".toList).map (fun s => s.1)).dedup.length = 0 ∧
    ((["a", "a"] : List String).filter
        (fun x => !(((findall false "".toList).map (fun s => s.1)).contains x))).dedup.length
      = 1 ∧
    (["a", "a"] : List String).dedup.length = 1 ∧
    (2 : Nat) ≠ 0 + 1 ∧ ¬(2 ≤ 1) := by
  exact ⟨by decide, by decide, by decide, by decide, by decide, by decide⟩

/-! ## C4 — partial-resolution warning without keep-unresolved -/

/-- C4 (amended): with keep-unresolved off, the partial-resolution warning is
emitted if and only if the requested-host count differs from the
parsed-record count; it carries that count difference `n_err = len(hosts) -
len(df)` (which is not in general the number of membership-missing hosts);
and no entries are added for missing hosts — the result is exactly the
parsed rows. -/
theorem check_hosts_missing_warning_amended :
    ∀ (hosts : List String) (rev el : Bool) (rc : Int) (out : String) (now : Int)
      (res : CheckResult),
    check_hosts hosts rev el false rc out now = Except.ok res →
    ((Warning.noResult (nErr hosts el out) ∈ res.warnings) ↔
        hosts.length ≠ (findall el out.toList).length) ∧
    (∀ m, Warning.noResult m ∈ res.warnings → m = nErr hosts el out) ∧
    res.df = parsedRows el out now := by
  intro hosts rev el rc out now res h
  rw [check_hosts_ok_inv hosts rev el false rc out now res h]
  have hdup : ∀ m, Warning.noResult m ∉ dupWarnings hosts := by
    intro m hm
    unfold dupWarnings at hm
    split at hm
    · simp at hm
    · simp at hm
  unfold check_hosts_ok
  by_cases hn : nErr hosts el out ≠ 0
  · have hneq : hosts.length ≠ (findall el out.toList).length := by
      unfold nErr at hn
      omega
    rw [if_pos hn]
    simp only [Bool.and_false, Bool.false_eq_true, if_false]
    refine ⟨⟨fun _ => hneq,
      fun _ => List.mem_append.mpr (Or.inr (List.mem_singleton.mpr rfl))⟩, ?_, by trivial⟩
    intro m hm
    rcases List.mem_append.mp hm with hm | hm
    · exact absurd hm (hdup m)
    · simpa using hm
  · have heq : hosts.length = (findall el out.toList).length := by
      unfold nErr at hn
      omega
    rw [if_neg hn]
    refine ⟨⟨fun hmem => absurd hmem (hdup _), fun hne => absurd heq hne⟩, ?_, rfl⟩
    intro m hm
    exact absurd hm (hdup m)

/-- C4 witness: hosts `["a","b"]` with empty probe output — the warning is
present, carries 2, and no entries are added. -/
theorem check_hosts_missing_warning_witness :
    ((Warning.noResult (nErr ["a", "b"] false "") ∈
        (⟨[], [Warning.noResult 2]⟩ : CheckResult).warnings) ↔
      (["a", "b"] : List String).length ≠ (findall false "".toList).length) ∧
    (∀ m, Warning.noResult m ∈ (⟨[], [Warning.noResult 2]⟩ : CheckResult).warnings →
        m = nErr ["a", "b"] false "") ∧
    (⟨[], [Warning.noResult 2]⟩ : CheckResult).df = parsedRows false "" 2 :=
  check_hosts_missing_warning_amended ["a", "b"] false false 0 "" 2
    ⟨[], [Warning.noResult 2]⟩ (by decide)

/-- C4 counterexample: with keep-unresolved off, (i) hosts `["a","a"]` and
output `"a is alive"` — every requested hostname is present in the results
(the membership-missing set is empty), yet a warning carrying 1 is emitted;
(ii) hosts `["a","b"]` and output `"a is alive\na is alive"` — host `"b"` is
absent from the results, yet no warning is emitted because the counts
coincide. -/
theorem check_hosts_missing_warning_counterexample :
    check_hosts ["a", "a"] false false false 0 "a is alive" 1
      = Except.ok ⟨[⟨"a", RVal.tru, none, 1⟩],
                   [Warning.duplicates 1, Warning.noResult 1]⟩ ∧
    ((["a", "a"] : List String).all
        (fun x => ([⟨"a", RVal.tru, none, 1⟩] : List Row).any
          (fun r => r.machine == x))) = true ∧
    check_hosts ["a", "b"] false false false 0 "a is alive\na is alive" 1
      = Except.ok ⟨[⟨"a", RVal.tru, none, 1⟩, ⟨"a", RVal.tru, none, 1⟩], []⟩ ∧
    (([⟨"a", RVal.tru, none, 1⟩, ⟨"a", RVal.tru, none, 1⟩] : List Row).any
        (fun r => r.machine == "b")) = false := by
  exact ⟨by decide, by decide, by decide, by decide⟩

/-! ## C3 — parser shape: supporting lemmas -/
theorem dropLit_self (l : List Char) : ∀ cs, dropLit l (l ++ cs) = some cs := by
  induction l with
  | nil => intro cs; rfl
  | cons a as ih =>
    intro cs
    simp only [List.cons_append, dropLit, if_pos rfl]
    exact ih cs

theorem dropLit_length (l : List Char) :
    ∀ cs r, dropLit l cs = some r → r.length + l.length = cs.length := by
  induction l with
  | nil =>
    intro cs r h
    cases h
    simp
  | cons a as ih =>
    intro cs r h
    cases cs with
    | nil => cases h
    | cons c cs' =>
      simp only [dropLit] at h
      split at h
      · have := ih cs' r h
        simp only [List.length_cons]
        omega
      · cases h

theorem dropLit_decomp (l : List Char) :
    ∀ cs r, dropLit l cs = some r → cs = l ++ r := by
  induction l with
  | nil =>
    intro cs r h
    cases h
    rfl
  | cons a as ih =>
    intro cs r h
    cases cs with
    | nil => cases h
    | cons c cs' =>
      simp only [dropLit] at h
      split at h
      case isTrue heq =>
        rw [List.cons_append, heq, ih cs' r h]
      case isFalse => cases h

theorem dropLit_ext (l : List Char) (hnl : '\n' ∉ l) :
    ∀ u v, dropLit l (u ++ '\n' :: v) = (dropLit l u).map (fun r => r ++ '\n' :: v) := by
  induction l with
  | nil => intro u v; rfl
  | cons a as ih =>
    intro u v
    cases u with
    | nil =>
      have ha : a ≠ '\n' := fun h => hnl (h ▸ List.mem_cons_self a as)
      simp only [List.nil_append, dropLit]
      rw [if_neg (fun h => ha h.symm)]
      rfl
    | cons c u' =>
      simp only [List.cons_append, dropLit]
      split
      · exact ih (fun h => hnl (List.mem_cons_of_mem a h)) u' v
      · rfl

theorem takeRun_decomp (p : Char → Bool) : ∀ cs, (takeRun p cs).1 ++ (takeRun p cs).2 = cs := by
  intro cs
  induction cs with
  | nil => rfl
  | cons c cs ih =>
    simp only [takeRun]
    split
    · simpa using ih
    · rfl

theorem takeRun_split (p : Char → Bool) (a b : List Char)
    (ha : ∀ c ∈ a, p c = true) (hb : ∀ c, b.head? = some c → p c = false) :
    takeRun p (a ++ b) = (a, b) := by
  induction a with
  | nil =>
    cases b with
    | nil => rfl
    | cons c b' =>
      simp only [List.nil_append, takeRun]
      rw [if_neg (by simp [hb c rfl])]
  | cons c a' ih =>
    simp only [List.cons_append, takeRun]
    rw [if_pos (ha c (List.mem_cons_self c a'))]
    have := ih (fun x hx => ha x (List.mem_cons_of_mem c hx))
    simp [this]

theorem takeRun_ext (p : Char → Bool) (hp : p '\n' = false) :
    ∀ u v, takeRun p (u ++ '\n' :: v) = ((takeRun p u).1, (takeRun p u).2 ++ '\n' :: v) := by
  intro u v
  induction u with
  | nil =>
    simp only [List.nil_append, takeRun]
    rw [if_neg (by simp [hp])]
  | cons c u' ih =>
    simp only [List.cons_append, takeRun]
    split
    · simp [ih]
    · rfl

/-- A successful `.\d+ ms)` tail strictly shortens the input. -/
theorem matTail_length :
    ∀ cs c d2 r, matTail cs = some (c, d2, r) → r.length < cs.length := by
  intro cs c d2 r h
  cases cs with
  | nil => cases h
  | cons c0 cs' =>
    simp only [matTail] at h
    split at h
    · split at h
      · cases h
      · rename_i d ds rest heq
        split at h
        · rename_i rest2 hdl
          cases h
          have h1 := dropLit_length litMs rest r hdl
          have h2 := takeRun_decomp isDigitC cs'
          rw [heq] at h2
          have h3 := congrArg List.length h2
          simp only [List.length_append, List.length_cons, litMs, List.length_nil] at h1 h3 ⊢
          omega
        · cases h
    · cases h

/-- The `.\d+ ms)` tail does not cross a newline. -/
theorem matTail_ext :
    ∀ u v, matTail (u ++ '\n' :: v)
      = (matTail u).map (fun x => (x.1, x.2.1, x.2.2 ++ '\n' :: v)) := by
  intro u v
  cases u with
  | nil =>
    simp only [List.nil_append, matTail]
    rw [if_neg (by simp [notNL])]
    rfl
  | cons c0 u' =>
    simp only [List.cons_append, matTail]
    split
    · rw [takeRun_ext isDigitC (by decide) u' v]
      cases htr : takeRun isDigitC u' with
      | mk run rest =>
        cases run with
        | nil => rfl
        | cons d ds =>
          simp only
          rw [dropLit_ext litMs (by decide) rest v]
          cases hdl : dropLit litMs rest with
          | none => rfl
          | some rest2 => rfl
    · rfl

/-- The backtracking digit scan shortens or preserves the input budget. -/
theorem d1Bt_length :
    ∀ rr cs cap r, d1Bt rr cs = some (cap, r) → r.length ≤ rr.length + cs.length := by
  intro rr
  induction rr with
  | nil => intro cs cap r h; cases h
  | cons d rr' ih =>
    intro cs cap r h
    simp only [d1Bt] at h
    split at h
    · rename_i c d2 rest heq
      cases h
      have := matTail_length cs c d2 r heq
      simp only [List.length_cons]
      omega
    · have := ih (d :: cs) cap r h
      simp only [List.length_cons] at this ⊢
      omega

/-- The backtracking digit scan does not cross a newline. -/
theorem d1Bt_ext :
    ∀ rr u v, d1Bt rr (u ++ '\n' :: v)
      = (d1Bt rr u).map (fun x => (x.1, x.2 ++ '\n' :: v)) := by
  intro rr
  induction rr with
  | nil => intro u v; rfl
  | cons d rr' ih =>
    intro u v
    simp only [d1Bt]
    rw [matTail_ext u v]
    cases hmt : matTail u with
    | some x => rfl
    | none =>
      simp only [Option.map_none]
      exact ih (d :: u) v

/-- A successful latency-group match does not lengthen the input. -/
theorem matchLat_length :
    ∀ cs cap r, matchLat cs = some (cap, r) → r.length ≤ cs.length := by
  intro cs cap r h
  unfold matchLat at h
  split at h
  · cases h
  · rename_i cs1 hdl
    split at h
    · rename_i cap0 r0 heq
      cases h
      have h1 := dropLit_length litParen cs cs1 hdl
      have h2 := d1Bt_length _ _ _ _ heq
      have h3 := congrArg List.length (takeRun_decomp isDigitC cs1)
      simp only [List.length_append, List.length_reverse, litParen, List.length_cons,
        List.length_nil] at h1 h2 h3 ⊢
      omega
    · cases h

/-- The latency group does not cross a newline. -/
theorem matchLat_ext :
    ∀ u v, matchLat (u ++ '\n' :: v)
      = (matchLat u).map (fun x => (x.1, x.2 ++ '\n' :: v)) := by
  intro u v
  unfold matchLat
  rw [dropLit_ext litParen (by decide) u v]
  cases hdl : dropLit litParen u with
  | none => rfl
  | some cs1 =>
    simp only [Option.map_some']
    rw [takeRun_ext isDigitC (by decide) cs1 v]
    simp only
    rw [d1Bt_ext ((takeRun isDigitC cs1).1.reverse) ((takeRun isDigitC cs1).2) v]
    cases hbt : d1Bt (takeRun isDigitC cs1).1.reverse (takeRun isDigitC cs1).2 with
    | none => rfl
    | some x => rfl

/-- No pattern tail matches the empty input. -/
theorem matchAfterHost_nil (el : Bool) : matchAfterHost el [] = none := rfl

/-- The pattern tail ` is ...` fails at any head other than a space. -/
theorem matchAfterHost_none_head (el : Bool) (c : Char) (cs : List Char) (hc : c ≠ ' ') :
    matchAfterHost el (c :: cs) = none := by
  unfold matchAfterHost
  have hd : dropLit litIs (c :: cs) = none := by
    simp only [litIs, dropLit]
    rw [if_neg hc]
  rw [hd]

/-- A successful pattern-tail match consumes at least five characters. -/
theorem matchAfterHost_length (el : Bool) :
    ∀ cs t l r, matchAfterHost el cs = some (t, l, r) → r.length + 5 ≤ cs.length := by
  intro cs t l r h
  unfold matchAfterHost at h
  split at h
  · cases h
  · rename_i cs1 hdl
    split at h
    · cases h
    · rename_i t0 ts rest heq
      have h1 := dropLit_length litIs cs cs1 hdl
      have h2 := congrArg List.length (takeRun_decomp isLowerAZ cs1)
      rw [heq] at h2
      simp only [List.length_append, List.length_cons, litIs, List.length_nil] at h1 h2
      split at h
      · split at h
        · rename_i cap rest2 hlat
          cases h
          have h3 := matchLat_length _ _ _ hlat
          omega
        · cases h
          omega
      · cases h
        omega

/-- The pattern tail does not cross a newline. -/
theorem matchAfterHost_ext (el : Bool) :
    ∀ u v, matchAfterHost el (u ++ '\n' :: v)
      = (matchAfterHost el u).map (fun x => (x.1, x.2.1, x.2.2 ++ '\n' :: v)) := by
  intro u v
  unfold matchAfterHost
  rw [dropLit_ext litIs (by decide) u v]
  cases hdl : dropLit litIs u with
  | none => rfl
  | some cs1 =>
    simp only [Option.map_some']
    rw [takeRun_ext isLowerAZ (by decide) cs1 v]
    cases htr : takeRun isLowerAZ cs1 with
    | mk run rest =>
      cases run with
      | nil => rfl
      | cons t0 ts =>
        simp only
        cases el with
        | false => rfl
        | true =>
          simp only [if_true]
          rw [matchLat_ext rest v]
          cases hml : matchLat rest with
          | none => rfl
          | some x => rfl

/-- A successful lazy scan strictly shortens the input. -/
theorem tryHost_length (el : Bool) :
    ∀ cs acc h t l r, tryHost el acc cs = some (h, t, l, r) → r.length < cs.length := by
  intro cs
  induction cs with
  | nil =>
    intro acc h t l r hh
    simp only [tryHost, matchAfterHost_nil] at hh
    exact Option.noConfusion hh
  | cons c cs' ih =>
    intro acc h t l r hh
    simp only [tryHost] at hh
    split at hh
    · rename_i tok lat rest heq
      cases hh
      have := matchAfterHost_length el (c :: cs') _ _ _ heq
      simp only [List.length_cons] at this ⊢
      omega
    · split at hh
      · have := ih (c :: acc) h t l r hh
        simp only [List.length_cons]
        omega
      · cases hh

/-- A successful match strictly shortens the input. -/
theorem matchFrom_length (el : Bool) (cs : List Char) (h t : String) (l : Option String)
    (r : List Char) (hm : matchFrom el cs = some (h, t, l, r)) : r.length < cs.length :=
  tryHost_length el cs [] h t l r hm

/-- The lazy scan does not cross a newline. -/
theorem tryHost_ext (el : Bool) :
    ∀ u acc v, tryHost el acc (u ++ '\n' :: v)
      = (tryHost el acc u).map (fun x => (x.1, x.2.1, x.2.2.1, x.2.2.2 ++ '\n' :: v)) := by
  intro u
  induction u with
  | nil =>
    intro acc v
    simp only [List.nil_append, tryHost, matchAfterHost_nil]
    rw [matchAfterHost_none_head el '\n' v (by decide)]
    simp [notNL]
  | cons c u' ih =>
    intro acc v
    have hext := matchAfterHost_ext el (c :: u') v
    rw [List.cons_append] at hext
    rw [List.cons_append]
    simp only [tryHost]
    rw [hext]
    cases hma : matchAfterHost el (c :: u') with
    | some x =>
      rcases x with ⟨tok, lat, rest⟩
      rfl
    | none =>
      simp only [Option.map_none']
      cases hnl : notNL c with
      | true =>
        rw [if_pos rfl, if_pos rfl]
        exact ih (c :: acc) v
      | false =>
        rw [if_neg (by simp), if_neg (by simp)]
        rfl

/-- The anchored match does not cross a newline. -/
theorem matchFrom_ext (el : Bool) (u v : List Char) :
    matchFrom el (u ++ '\n' :: v)
      = (matchFrom el u).map (fun x => (x.1, x.2.1, x.2.2.1, x.2.2.2 ++ '\n' :: v)) :=
  tryHost_ext el u [] v

/-- Does the input begin with ` is ` followed by a lowercase letter — the
minimal footprint a pattern match needs at its ` is ` position? -/
def isTokAt : List Char → Bool
  | ' ' :: 'i' :: 's' :: ' ' :: c :: _ => isLowerAZ c
  | _ => false

/-- Does ` is ` followed by a lowercase letter occur anywhere in the input? -/
def hasIsTok : List Char → Bool
  | [] => false
  | c :: cs => isTokAt (c :: cs) || hasIsTok cs

/-- A successful pattern tail needs ` is ` plus a lowercase letter. -/
theorem matchAfterHost_isTokAt (el : Bool) :
    ∀ cs x, matchAfterHost el cs = some x → isTokAt cs = true := by
  intro cs x h
  unfold matchAfterHost at h
  split at h
  · cases h
  · rename_i cs1 hdl
    split at h
    · cases h
    · rename_i t0 ts rest heq
      have hdec := dropLit_decomp litIs cs cs1 hdl
      have hdec2 := takeRun_decomp isLowerAZ cs1
      rw [heq] at hdec2
      have hlow : isLowerAZ t0 = true := by
        rcases hcs1 : cs1 with _ | ⟨c1, cs1'⟩
        · rw [hcs1] at hdec2
          cases hdec2
        · rw [hcs1] at heq
          simp only [takeRun] at heq
          split at heq
          · rename_i hpc
            cases heq
            exact hpc
          · cases heq
      have : cs = ' ' :: 'i' :: 's' :: ' ' :: (t0 :: ts ++ rest) := by
        rw [hdec, litIs, ← hdec2]
        rfl
      rw [this]
      simpa [isTokAt] using hlow

/-- Without any ` is <lowercase>` occurrence the lazy scan fails. -/
theorem tryHost_none (el : Bool) :
    ∀ cs acc, hasIsTok cs = false → tryHost el acc cs = none := by
  intro cs
  induction cs with
  | nil =>
    intro acc _
    simp only [tryHost, matchAfterHost_nil]
  | cons c cs' ih =>
    intro acc hno
    simp only [hasIsTok, Bool.or_eq_false_iff] at hno
    have hma : matchAfterHost el (c :: cs') = none := by
      cases h : matchAfterHost el (c :: cs') with
      | none => rfl
      | some x =>
        have := matchAfterHost_isTokAt el (c :: cs') x h
        rw [this] at hno
        cases hno.1
    simp only [tryHost, hma]
    cases hnl : notNL c with
    | true =>
      rw [if_pos rfl]
      exact ih (c :: acc) hno.2
    | false => rw [if_neg (by simp)]

/-- No match is found in the empty input. -/
theorem matchFrom_nil (el : Bool) : matchFrom el [] = none := rfl

/-- Scanning the empty input yields no records, whatever the fuel. -/
theorem findallAux_nil (el : Bool) : ∀ f, findallAux el f [] = [] := by
  intro f
  cases f with
  | zero => rfl
  | succ f' => rfl

/-- The fuel is irrelevant once it covers the input length. -/
theorem findallAux_fuel (el : Bool) :
    ∀ f₁ cs f₂, cs.length ≤ f₁ → cs.length ≤ f₂ →
      findallAux el f₁ cs = findallAux el f₂ cs := by
  intro f₁
  induction f₁ with
  | zero =>
    intro cs f₂ h1 _
    have : cs = [] := List.eq_nil_of_length_eq_zero (Nat.le_zero.mp h1)
    rw [this, findallAux_nil, findallAux_nil]
  | succ f₁' ih =>
    intro cs f₂ h1 h2
    cases cs with
    | nil => rw [findallAux_nil, findallAux_nil]
    | cons c cs' =>
      cases f₂ with
      | zero => simp at h2
      | succ f₂' =>
        simp only [findallAux]
        cases hm : matchFrom el (c :: cs') with
        | some x =>
          rcases x with ⟨h, t, l, rest⟩
          have hlen := matchFrom_length el (c :: cs') h t l rest hm
          simp only [List.length_cons] at h1 h2 hlen
          show (h, t, l) :: findallAux el f₁' rest = (h, t, l) :: findallAux el f₂' rest
          rw [ih rest f₂' (by omega) (by omega)]
        | none =>
          simp only [List.length_cons] at h1 h2
          exact ih cs' f₂' (by omega) (by omega)

/-- Unfolding `findall` at a successful match. -/
theorem findall_eq_some (el : Bool) (cs : List Char) (h t : String) (l : Option String)
    (rest : List Char) (hm : matchFrom el cs = some (h, t, l, rest)) :
    findall el cs = (h, t, l) :: findall el rest := by
  cases cs with
  | nil => rw [matchFrom_nil] at hm; cases hm
  | cons c cs' =>
    unfold findall
    simp only [List.length_cons, findallAux, hm]
    have hlen := matchFrom_length el (c :: cs') h t l rest hm
    simp only [List.length_cons] at hlen
    rw [findallAux_fuel el cs'.length rest rest.length (by omega) (by omega)]

/-- Unfolding `findall` at a failed match. -/
theorem findall_eq_none (el : Bool) (c : Char) (cs : List Char)
    (hm : matchFrom el (c :: cs) = none) :
    findall el (c :: cs) = findall el cs := by
  unfold findall
  simp only [List.length_cons, findallAux, hm]

/-- Matches never span a newline: scanning splits at every newline. -/
theorem findall_append_nl (el : Bool) :
    ∀ n a b, a.length ≤ n →
      findall el (a ++ '\n' :: b) = findall el a ++ findall el b := by
  intro n
  induction n with
  | zero =>
    intro a b ha
    have : a = [] := List.eq_nil_of_length_eq_zero (Nat.le_zero.mp ha)
    subst this
    rw [List.nil_append]
    have hm : matchFrom el ('\n' :: b) = none := by
      have := matchFrom_ext el [] b
      rw [List.nil_append] at this
      rw [this, matchFrom_nil]
      rfl
    rw [findall_eq_none el '\n' b hm]
    rfl
  | succ n' ih =>
    intro a b ha
    cases hm : matchFrom el a with
    | some x =>
      rcases x with ⟨h, t, l, rest⟩
      have hmext : matchFrom el (a ++ '\n' :: b) = some (h, t, l, rest ++ '\n' :: b) := by
        rw [matchFrom_ext el a b, hm]
        rfl
      rw [findall_eq_some el _ h t l _ hmext, findall_eq_some el a h t l rest hm]
      have hlen := matchFrom_length el a h t l rest hm
      rw [ih rest b (by omega)]
      rfl
    | none =>
      cases a with
      | nil =>
        rw [List.nil_append]
        have hmn : matchFrom el ('\n' :: b) = none := by
          have := matchFrom_ext el [] b
          rw [List.nil_append] at this
          rw [this, matchFrom_nil]
          rfl
        rw [findall_eq_none el '\n' b hmn]
        rfl
      | cons c a' =>
        have hmext : matchFrom el ((c :: a') ++ '\n' :: b) = none := by
          rw [matchFrom_ext el (c :: a') b, hm]
          rfl
        rw [List.cons_append] at hmext
        rw [List.cons_append, findall_eq_none el c (a' ++ '\n' :: b) hmext,
          findall_eq_none el c a' hm]
        simp only [List.length_cons] at ha
        exact ih a' b (by omega)

/-- Exact latency-group match on a well-formed ` (<digits>.<digits> ms)`
suffix. -/
theorem matchLat_exact (d1 d2 : List Char) (h1 : d1 ≠ []) (h2 : d2 ≠ [])
    (hd1 : ∀ c ∈ d1, isDigitC c = true) (hd2 : ∀ c ∈ d2, isDigitC c = true) :
    matchLat (litParen ++ (d1 ++ '.' :: (d2 ++ litMs)))
      = some (String.mk (d1 ++ '.' :: d2), []) := by
  have htr : takeRun isDigitC (d1 ++ '.' :: (d2 ++ litMs)) = (d1, '.' :: (d2 ++ litMs)) :=
    takeRun_split isDigitC d1 _ hd1 (fun c hc => by cases hc; decide)
  have hmt : matTail ('.' :: (d2 ++ litMs)) = some ('.', d2, []) := by
    simp only [matTail]
    rw [if_pos (by decide)]
    have htr2 : takeRun isDigitC (d2 ++ litMs) = (d2, litMs) :=
      takeRun_split isDigitC d2 litMs hd2 (fun c hc => by cases hc; decide)
    rw [htr2]
    cases d2 with
    | nil => exact absurd rfl h2
    | cons f fs =>
      have hms : dropLit litMs litMs = some [] := by
        have := dropLit_self litMs []
        rwa [List.append_nil] at this
      simp only [hms]
  obtain ⟨e, rr, hrev⟩ : ∃ e rr, d1.reverse = e :: rr := by
    cases hd : d1.reverse with
    | nil => exact absurd (by simpa using congrArg List.reverse hd) h1
    | cons e rr => exact ⟨e, rr, rfl⟩
  simp only [matchLat, dropLit_self, htr, hrev, d1Bt, hmt]
  rw [← hrev, List.reverse_reverse]

/-- Exact pattern-tail match on ` is <token>` with nothing after. -/
theorem matchAfterHost_exact_plain (el : Bool) (t : List Char) (ht : t ≠ [])
    (hlow : ∀ c ∈ t, isLowerAZ c = true) :
    matchAfterHost el (litIs ++ t) = some (String.mk t, none, []) := by
  have htr : takeRun isLowerAZ t = (t, []) := by
    have := takeRun_split isLowerAZ t [] hlow (fun c hc => by cases hc)
    rwa [List.append_nil] at this
  simp only [matchAfterHost, dropLit_self, htr]
  cases t with
  | nil => exact absurd rfl ht
  | cons t0 ts => cases el <;> rfl

/-- Exact pattern-tail match on ` is <token> (<digits>.<digits> ms)` with
latency capture on. -/
theorem matchAfterHost_exact_lat (t d1 d2 : List Char) (ht : t ≠ [])
    (hlow : ∀ c ∈ t, isLowerAZ c = true) (h1 : d1 ≠ []) (h2 : d2 ≠ [])
    (hd1 : ∀ c ∈ d1, isDigitC c = true) (hd2 : ∀ c ∈ d2, isDigitC c = true) :
    matchAfterHost true (litIs ++ (t ++ (litParen ++ (d1 ++ '.' :: (d2 ++ litMs)))))
      = some (String.mk t, some (String.mk (d1 ++ '.' :: d2)), []) := by
  have htr : takeRun isLowerAZ (t ++ (litParen ++ (d1 ++ '.' :: (d2 ++ litMs))))
      = (t, litParen ++ (d1 ++ '.' :: (d2 ++ litMs))) :=
    takeRun_split isLowerAZ t _ hlow (fun c hc => by cases hc; decide)
  simp only [matchAfterHost, dropLit_self, htr]
  cases t with
  | nil => exact absurd rfl ht
  | cons t0 ts =>
    simp only [if_true, matchLat_exact d1 d2 h1 h2 hd1 hd2]

/-- The lazy scan walks over a host free of spaces and newlines and then
completes with the pattern tail. -/
theorem tryHost_over_host (el : Bool) :
    ∀ (h acc tail : List Char) (tok : String) (lat : Option String) (rest : List Char),
    (∀ c ∈ h, c ≠ ' ' ∧ c ≠ '\n') →
    matchAfterHost el tail = some (tok, lat, rest) →
    tryHost el acc (h ++ tail) = some (String.mk (acc.reverse ++ h), tok, lat, rest) := by
  intro h
  induction h with
  | nil =>
    intro acc tail tok lat rest _ hma
    cases tail with
    | nil => rw [matchAfterHost_nil] at hma; cases hma
    | cons c tail' => simp only [List.nil_append, tryHost, hma, List.append_nil]
  | cons c h' ih =>
    intro acc tail tok lat rest hch hma
    have hc := hch c (List.mem_cons_self c h')
    rw [List.cons_append]
    simp only [tryHost]
    rw [matchAfterHost_none_head el c (h' ++ tail) hc.1]
    rw [if_pos (by simp [notNL, hc.2])]
    rw [ih (c :: acc) tail tok lat rest (fun x hx => hch x (List.mem_cons_of_mem c hx)) hma]
    simp [List.reverse_cons, List.append_assoc]

/-- Rendered latency suffix ` (<d1>.<d2> ms)`, empty when absent. -/
def latSuffix : Option (List Char × List Char) → List Char
  | none => []
  | some d => litParen ++ (d.1 ++ '.' :: (d.2 ++ litMs))

/-- One stdout line, as the claim describes them: either of the expected
shape `<host> is <token>` with an optional latency suffix, or any other
line. -/
inductive LineSpec
  | good (host : List Char) (tok : List Char) (lat : Option (List Char × List Char))
  | other (raw : List Char)

/-- The raw text of a line. -/
def LineSpec.render : LineSpec → List Char
  | LineSpec.good h t lat => h ++ (litIs ++ (t ++ latSuffix lat))
  | LineSpec.other raw => raw

/-- Well-formedness of a line, per the claim's side conditions: a good line's
host contains no space (hostnames have none — a space would let the `(.*?)`
scan stop early inside the host) and no newline, its token is `alive` or
`unreachable`, and a latency suffix appears only with capture on and holds
nonempty digit runs; an ignored line contains no newline and no ` is
<lowercase>` occurrence at all (the pattern's minimal footprint). -/
def LineSpec.wf (el : Bool) : LineSpec → Prop
  | LineSpec.good h t lat =>
      (∀ c ∈ h, c ≠ ' ' ∧ c ≠ '\n') ∧
      (t = "alive".toList ∨ t = "unreachable".toList) ∧
      (match lat with
       | some d => el = true ∧ d.1 ≠ [] ∧ d.2 ≠ [] ∧
           (∀ c ∈ d.1, isDigitC c = true) ∧ (∀ c ∈ d.2, isDigitC c = true)
       | none => True)
  | LineSpec.other raw => '\n' ∉ raw ∧ hasIsTok raw = false

/-- The records a line is expected to contribute: exactly one for a good
line, none for an ignored line. -/
def LineSpec.records : LineSpec → List (String × String × Option String)
  | LineSpec.good h t lat =>
      [(String.mk h, String.mk t, lat.map (fun d => String.mk (d.1 ++ '.' :: d.2)))]
  | LineSpec.other _ => []

/-- Join lines with newline separators, as found in the probe's stdout. -/
def joinLines : List (List Char) → List Char
  | [] => []
  | [l] => l
  | l :: ls => l ++ '\n' :: joinLines ls

/-- The scan of joined lines is the concatenation of the per-line scans. -/
theorem findall_joinLines (el : Bool) :
    ∀ ls, findall el (joinLines ls) = ls.flatMap (fun l => findall el l) := by
  intro ls
  induction ls with
  | nil => rfl
  | cons l ls' ih =>
    cases ls' with
    | nil => simp [joinLines, List.flatMap_cons]
    | cons l2 ls'' =>
      rw [show joinLines (l :: l2 :: ls'') = l ++ '\n' :: joinLines (l2 :: ls'') from rfl]
      rw [findall_append_nl el l.length l _ (le_refl _), ih]
      simp [List.flatMap_cons]

/-- A well-formed good line parses to exactly its one record. -/
theorem findall_good_line (el : Bool) (h t : List Char) (lat : Option (List Char × List Char))
    (hh : ∀ c ∈ h, c ≠ ' ' ∧ c ≠ '\n') (ht : t ≠ []) (hlow : ∀ c ∈ t, isLowerAZ c = true)
    (hlat : match lat with
            | some d => el = true ∧ d.1 ≠ [] ∧ d.2 ≠ [] ∧
                (∀ c ∈ d.1, isDigitC c = true) ∧ (∀ c ∈ d.2, isDigitC c = true)
            | none => True) :
    findall el (h ++ (litIs ++ (t ++ latSuffix lat)))
      = [(String.mk h, String.mk t, lat.map (fun d => String.mk (d.1 ++ '.' :: d.2)))] := by
  have hma : matchAfterHost el (litIs ++ (t ++ latSuffix lat))
      = some (String.mk t, lat.map (fun d => String.mk (d.1 ++ '.' :: d.2)), []) := by
    cases lat with
    | none =>
      simp only [latSuffix, List.append_nil, Option.map_none']
      exact matchAfterHost_exact_plain el t ht hlow
    | some d =>
      obtain ⟨hel, h1, h2, hd1, hd2⟩ := hlat
      subst hel
      simp only [latSuffix, Option.map_some']
      exact matchAfterHost_exact_lat t d.1 d.2 ht hlow h1 h2 hd1 hd2
  have hm : matchFrom el (h ++ (litIs ++ (t ++ latSuffix lat)))
      = some (String.mk h, String.mk t,
          lat.map (fun d => String.mk (d.1 ++ '.' :: d.2)), []) := by
    have := tryHost_over_host el h [] _ _ _ _ hh hma
    simpa [matchFrom] using this
  rw [findall_eq_some el _ _ _ _ _ hm]
  rfl

/-- A line containing no ` is <lowercase>` occurrence parses to nothing. -/
theorem findall_other_line (el : Bool) :
    ∀ raw, hasIsTok raw = false → findall el raw = [] := by
  intro raw
  induction raw with
  | nil => intro _; rfl
  | cons c raw' ih =>
    intro hno
    have hno' := hno
    simp only [hasIsTok, Bool.or_eq_false_iff] at hno'
    have hmn : matchFrom el (c :: raw') = none := tryHost_none el (c :: raw') [] hno
    rw [findall_eq_none el c raw' hmn]
    exact ih hno'.2

/-- Well-formed lines parse to exactly their expected records. -/
theorem findall_renders (el : Bool) :
    ∀ specs : List LineSpec, (∀ s ∈ specs, s.wf el) →
    (specs.map LineSpec.render).flatMap (fun l => findall el l)
      = specs.flatMap LineSpec.records := by
  intro specs
  induction specs with
  | nil => intro _; rfl
  | cons s specs' ih =>
    intro hwf
    rw [List.map_cons, List.flatMap_cons, List.flatMap_cons,
      ih (fun x hx => hwf x (List.mem_cons_of_mem s hx))]
    congr 1
    have hs := hwf s (List.mem_cons_self s specs')
    cases s with
    | other raw => exact findall_other_line el raw hs.2
    | good h t lat =>
      obtain ⟨hh, htok, hlat⟩ := hs
      have ht : t ≠ [] := by rcases htok with rfl | rfl <;> decide
      have hlow : ∀ c ∈ t, isLowerAZ c = true := by rcases htok with rfl | rfl <;> decide
      exact findall_good_line el h t lat hh ht hlow hlat

/-- C3 (amended): for stdout consisting of lines that are either of the
expected shape `<host> is <alive|unreachable>` (host free of spaces and
newlines; optionally followed by ` (<digits>.<digits> ms)` when latency
capture is on) or contain no ` is <lowercase>` occurrence at all, the parser
produces one record exactly per line of the expected shape, in order,
ignores every other line, and every produced record's reachable value is
true (from the token `alive`) or false (from the token `unreachable`).
Outside this class of stdout texts the original claim fails: a record is
produced per pattern occurrence, not per well-shaped line, and any lowercase
token — not just `alive`/`unreachable` — can appear in a record (see the
counterexample). -/
theorem findall_wellformed_lines_amended :
    ∀ (el : Bool) (specs : List LineSpec),
    (∀ s ∈ specs, s.wf el) →
    findall el (joinLines (specs.map LineSpec.render)) = specs.flatMap LineSpec.records ∧
    ∀ rec ∈ specs.flatMap LineSpec.records,
      (rec.2.1 = "alive" ∧ reachableOfTok rec.2.1 = RVal.tru) ∨
      (rec.2.1 = "unreachable" ∧ reachableOfTok rec.2.1 = RVal.fls) := by
  intro el specs hwf
  constructor
  · rw [findall_joinLines]
    exact findall_renders el specs hwf
  · intro rec hrec
    rw [List.mem_flatMap] at hrec
    obtain ⟨s, hsmem, hrec⟩ := hrec
    have hs := hwf s hsmem
    cases s with
    | other raw => exact absurd hrec (List.not_mem_nil rec)
    | good h t lat =>
      obtain ⟨hh, htok, hlat⟩ := hs
      have hrec' := List.mem_singleton.mp hrec
      subst hrec'
      rcases htok with rfl | rfl
      · exact Or.inl ⟨rfl, rfl⟩
      · exact Or.inr ⟨rfl, rfl⟩

/-- C3 witness: an alive line, a diagnostic line without the pattern
footprint, and an unreachable line parse to exactly the two expected
records, both with boolean reachability. -/
theorem findall_wellformed_lines_witness :
    findall false (joinLines ([LineSpec.good "hosta".toList "alive".toList none,
        LineSpec.other "ICMP Redirect from 10.0.0.1".toList,
        LineSpec.good "hostb".toList "unreachable".toList none].map LineSpec.render))
      = [LineSpec.good "hosta".toList "alive".toList none,
         LineSpec.other "ICMP Redirect from 10.0.0.1".toList,
         LineSpec.good "hostb".toList "unreachable".toList none].flatMap LineSpec.records ∧
    ∀ rec ∈ [LineSpec.good "hosta".toList "alive".toList none,
        LineSpec.other "ICMP Redirect from 10.0.0.1".toList,
        LineSpec.good "hostb".toList "unreachable".toList none].flatMap LineSpec.records,
      (rec.2.1 = "alive" ∧ reachableOfTok rec.2.1 = RVal.tru) ∨
      (rec.2.1 = "unreachable" ∧ reachableOfTok rec.2.1 = RVal.fls) :=
  findall_wellformed_lines_amended false
    [LineSpec.good "hosta".toList "alive".toList none,
     LineSpec.other "ICMP Redirect from 10.0.0.1".toList,
     LineSpec.good "hostb".toList "unreachable".toList none]
    (by
      intro s hs
      rcases List.mem_cons.mp hs with rfl | hs
      · exact ⟨by decide, Or.inl rfl, trivial⟩
      rcases List.mem_cons.mp hs with rfl | hs
      · exact ⟨by decide, by decide⟩
      rcases List.mem_cons.mp hs with rfl | hs
      · exact ⟨by decide, Or.inr rfl, trivial⟩
      · cases hs)

/-- C3 counterexample: the parser is not line-shaped as claimed — the line
`"h is down"` is neither of the form `<host> is <alive|unreachable>` nor
ignored: it produces a record whose reachable value stays the raw token
`"down"`, neither true nor false; the single line `"a is b is alive"`
produces two records; and `"host is alive trailing"` is not of the expected
shape yet still produces a record. -/
theorem findall_shape_counterexample :
    findall false ("h is down".toList) = [("h", "down", none)] ∧
    reachableOfTok "down" = RVal.tok "down" ∧
    RVal.tok "down" ≠ RVal.tru ∧ RVal.tok "down" ≠ RVal.fls ∧
    (findall false ("a is b is alive".toList)).length = 2 ∧
    findall false ("host is alive trailing".toList) = [("host", "alive", none)] := by
  exact ⟨by decide, by decide, by decide, by decide, by decide, by decide⟩
